import Mathlib

/-!
Verification of the projection-overlay renderer `draw_projections_on_image`
from `src/functions.py` of the 3d_pcd_segmentation_via_sensor_fusion
repository.

Modelling conventions:
* A projected point is a triple `(u, v, z)` of rationals — the real
  pixel coordinates of the point and its depth.  The 3×N array `velo_uvz` is the list of
  its columns, so deleting a column removes the same index from `u`, `v`
  and `z` at once, exactly as `np.delete(_, _, axis=1)` does.
* The image is a raster buffer: a height, a width, and a pixel map.
* Python `int(x)` on a real value truncates toward zero; `x.round()` in
  numpy rounds half to even.  Both are embedded as integer arithmetic on
  the numerator and denominator of the rational so that they compute.
* The optional `indexes` argument is a Python set of non-negative integers;
  it is embedded as `Option (List ℕ)` carrying the iteration order of the set.
  The Python check `if indexes:` is falsy both for `None` and for an
  empty set, embedded by `truthy` below.
* A raised `IndexError` aborts the call before the file write; the
  embedding returns the buffer state, the saved file content (if the save
  executed) and the exception (if one was raised).
-/

/-- An RGB color channel triple (the renderer passes floats scaled to
0–255 to the drawing primitive). -/
abbrev Color : Type := ℚ × ℚ × ℚ

/-- One projected LiDAR point: pixel coordinates `u`, `v` and depth `z`,
i.e. one column of the `velo_uvz` array. -/
abbrev Point : Type := ℚ × ℚ × ℚ

/-- The `u` (horizontal pixel) coordinate of a point. -/
def Point.u (p : Point) : ℚ := p.1

/-- The `v` (vertical pixel) coordinate of a point. -/
def Point.v (p : Point) : ℚ := p.2.1

/-- The depth `z` of a point. -/
def Point.z (p : Point) : ℚ := p.2.2

/-- Python `int(x)`: truncation of a real value toward zero.  For a
rational `num/den` with `den > 0` this is the truncating integer division
of the numerator by the denominator. -/
def truncToInt (q : ℚ) : Int := q.num.tdiv q.den

/-- Numpy `x.round()` followed by `int(_)`: round half to even.  Computed
from the floor `f = num.fdiv den` and the remainder `rem = num - f*den`,
so that the fractional part `rem/den` is compared with `1/2` by comparing
`2*rem` with `den`. -/
def roundHalfEven (q : ℚ) : Int :=
  let f := q.num.fdiv q.den
  let rem := q.num - f * q.den
  if 2 * rem < (q.den : Int) then f
  else if (q.den : Int) < 2 * rem then f + 1
  else if f % 2 = 0 then f else f + 1

/-- Modelled from the spec: indexing the 100-entry colormap lookup table
with an arbitrary integer.  The matplotlib colormap object maps an integer
index below `0` to the under color and an index above `99` to the over
color, which default to the first and last table entries, so the index is
clamped into `0..99` (the spec leaves out-of-range bins
implementation-defined). -/
def clampIdx (i : Int) : Fin 100 :=
  if h1 : i < 0 then ⟨0, by omega⟩
  else if h2 : (99:Int) < i then ⟨99, by omega⟩
  else ⟨i.toNat, by omega⟩

/-- The `color_map` lambda of `draw_projections_on_image` (line 60):
`lambda z: [255 * val for val in rainbow_r(int(z.round()))[:3]]`.
The 100-entry reversed-rainbow palette `rainbow_r` is an external
matplotlib table, so it is a parameter `palette`; the lambda rounds the
depth, looks up the palette entry and scales each RGB channel by 255. -/
def color_map (palette : Fin 100 → Color) (z : ℚ) : Color :=
  let c := palette (clampIdx (roundHalfEven z))
  (255 * c.1, 255 * c.2.1, 255 * c.2.2)

/-- The raster image buffer of the caller: `height × width` pixels (the third
numpy axis, the channels, is folded into `Color`). -/
structure Image where
  height : ℕ
  width : ℕ
  pix : ℕ → ℕ → Color

/-- Whether the filled circle of radius `rad` centered at the integer
pixel `cen = (x, y)` covers the in-bounds pixel at row `r`, column `c` of
an `h × w` image. -/
def hit (h w : ℕ) (cen : Int × Int) (rad : ℕ) (r c : ℕ) : Bool :=
  decide (((c:Int) - cen.1) * ((c:Int) - cen.1)
      + ((r:Int) - cen.2) * ((r:Int) - cen.2) ≤ (rad:Int) * (rad:Int))
    && decide (r < h) && decide (c < w)

/-- Modelled from the spec: the external circle-drawing primitive
`cv2.circle(image, center, radius, color, -1)` — `drawFilledCircle` in the
interface list of the spec — sets every in-bounds pixel covered by the filled
circle to `color`, silently clipping the part of the circle outside the
buffer, and never changes the dimensions of the buffer. -/
def drawCircle (img : Image) (cen : Int × Int) (rad : ℕ) (color : Color) : Image :=
  { height := img.height, width := img.width,
    pix := fun r c =>
      if hit img.height img.width cen rad r c then color else img.pix r c }

/-- The circle center used by the draw calls: `(int(u[i]), int(v[i]))`
(lines 65, 69, 72) — both real coordinates truncated toward zero. -/
def center (p : Point) : Int × Int := (truncToInt p.u, truncToInt p.v)

/-- One draw call of the renderer:
`cv2.circle(image, (int(u[i]), int(v[i])), 1, color_map(z[i]), -1)`. -/
def drawPoint (palette : Fin 100 → Color) (img : Image) (p : Point) : Image :=
  drawCircle img (center p) 1 (color_map palette p.z)

/-- Drawing a list of points left to right, each by `drawPoint`. -/
def drawSeq (palette : Fin 100 → Color) (ps : List Point) (img : Image) : Image :=
  ps.foldl (drawPoint palette) img

/-- The preprocessing block of `draw_projections_on_image` (lines 45–55):
first delete every column with `z < 0`, then, comparing against the image
shape `(img_h, img_w)`, delete every remaining column with
`u < 0 or u > img_w` or `v < 0 or v > img_h`.  `np.delete(_, _, axis=1)`
removes the same column index from all three rows and keeps the remaining
columns in order, which on the column list is a `filter` by the negated
condition. -/
def preprocessPoints (img_w img_h : ℚ) (P : List Point) : List Point :=
  let P1 := P.filter (fun p => !decide (p.z < 0))
  P1.filter (fun p =>
    !(decide (p.u < 0) || decide (p.u > img_w)
      || decide (p.v < 0) || decide (p.v > img_h)))

/-- Python truthiness of the `indexes` argument: `None` and the empty set
are falsy, a non-empty set is truthy. -/
def truthy (indexes : Option (List ℕ)) : Bool :=
  match indexes with
  | none => false
  | some l => !l.isEmpty

/-- The first drawing loop (lines 63–65):
`for i in range(len(u)): if indexes and i in indexes: cv2.circle(...)` —
a pass over all point indices in increasing order that draws point `i`
exactly when `indexes` is truthy and contains `i`. -/
def loopA (palette : Fin 100 → Color) (indexes : Option (List ℕ))
    (P : List Point) (img : Image) : Image :=
  P.enum.foldl
    (fun im ip =>
      if truthy indexes && (indexes.getD []).contains ip.1
      then drawPoint palette im ip.2 else im)
    img

/-- The loop `for i in indexes: cv2.circle(image, (int(u[i]), int(v[i])), ...)`
(lines 68–69), iterating the set in its iteration order: indexing `u[i]`
with `i` out of range raises `IndexError`, aborting the loop with the
buffer as mutated so far; otherwise every selected point is drawn. -/
def drawIdxRun (palette : Fin 100 → Color) (P : List Point) :
    List ℕ → Image → Image × Option String
  | [], img => (img, none)
  | i :: rest, img =>
    match P[i]? with
    | some p => drawIdxRun palette P rest (drawPoint palette img p)
    | none => (img, some "IndexError")

/-- The observable outcome of one call: the buffer of the caller when the call
ends (normally or by exception), the file content written to `save_path`
(if the save at line 76 executed), and the raised exception, if any. -/
structure RunResult where
  buffer : Image
  saved : Option Image
  err : Option String

/-- The point set the drawing loops iterate over: the preprocessing block
(lines 45–55) runs only when `preprocess` is true, otherwise `velo_uvz` is
used as given. -/
def activePoints (velo_uvz : List Point) (image : Image) (preprocess : Bool) : List Point :=
  if preprocess
  then preprocessPoints (image.width : ℚ) (image.height : ℚ) velo_uvz
  else velo_uvz

/-- The renderer `draw_projections_on_image(velo_uvz, image, save_path,
preprocess, indexes)` (lines 43–76): optionally preprocess the points
against the image shape, run the first (guarded) drawing loop, then either
draw the indexed subset (`if indexes:` truthy, lines 67–69) — where an
out-of-range index raises `IndexError` before the file is saved — or draw
every point (lines 70–72), and finally save the buffer to the output path
(lines 75–76).  `palette` stands for the matplotlib `rainbow_r` table. -/
def draw_projections_on_image (palette : Fin 100 → Color) (velo_uvz : List Point)
    (image : Image) (preprocess : Bool) (indexes : Option (List ℕ)) : RunResult :=
  let P := activePoints velo_uvz image preprocess
  let img1 := loopA palette indexes P image
  if truthy indexes then
    match drawIdxRun palette P (indexes.getD []) img1 with
    | (img2, none) => ⟨img2, some img2, none⟩
    | (img2, some m) => ⟨img2, none, some m⟩
  else
    let img2 := drawSeq palette P img1
    ⟨img2, some img2, none⟩

/-- The points of `P` selected by the index list `l`, in the order of `l`:
the sequence of draw targets of the `for i in indexes` loop when every
index is in range. -/
def sel (P : List Point) (l : List ℕ) : List Point :=
  l.filterMap (fun i => P[i]?)

/-- The last point of `ps` (in drawing order) whose circle covers the
in-bounds pixel `(r, c)` of an `h × w` image — the point whose color the
pixel shows after the whole sequence is drawn. -/
def lastHit (h w : ℕ) (ps : List Point) (r c : ℕ) : Option Point :=
  ps.foldl (fun acc p => if hit h w (center p) 1 r c then some p else acc) none

/-! Basic lemmas about preprocessing. -/

theorem mem_preprocessPoints {w h : ℚ} {P : List Point} {p : Point} :
    p ∈ preprocessPoints w h P ↔
      p ∈ P ∧ ¬ p.z < 0 ∧ ¬ p.u < 0 ∧ ¬ p.u > w ∧ ¬ p.v < 0 ∧ ¬ p.v > h := by
  simp [preprocessPoints, List.mem_filter]
  tauto

theorem preprocessPoints_sublist (w h : ℚ) (P : List Point) :
    (preprocessPoints w h P).Sublist P :=
  (List.filter_sublist _).trans (List.filter_sublist _)

/-- C1 (counterexample): the claim that preprocessing removes a point with
`u == image_width` is false — the source (line 52) removes only `u > img_w`,
so on a 100×100 image the single point `(u, v, z) = (100, 5, 2)` survives
preprocessing even though `u < image_width` fails for it. -/
theorem C1_exclusive_upper_bound_counterexample :
    preprocessPoints 100 100 [((100:ℚ), 5, 2)] = [((100:ℚ), 5, 2)]
      ∧ ¬ Point.u ((100:ℚ), 5, 2) < 100 := by
  constructor
  · decide
  · decide

/-- C1 (amended): after preprocessing against an `image_width × image_height`
frame, every remaining point satisfies `z ≥ 0`, `0 ≤ u ≤ image_width` and
`0 ≤ v ≤ image_height` — the upper bounds are inclusive: a point with
`u == image_width` or `v == image_height` is kept. -/
theorem C1_preprocess_bounds (w h : ℚ) (P : List Point) (p : Point)
    (hp : p ∈ preprocessPoints w h P) :
    0 ≤ p.z ∧ (0 ≤ p.u ∧ p.u ≤ w) ∧ (0 ≤ p.v ∧ p.v ≤ h) := by
  rcases mem_preprocessPoints.mp hp with ⟨-, hz, hu0, huw, hv0, hvh⟩
  exact ⟨not_lt.mp hz, ⟨not_lt.mp hu0, not_lt.mp huw⟩, ⟨not_lt.mp hv0, not_lt.mp hvh⟩⟩

/-- Witness for C1 (amended) at the concrete point `(5, 5, 2)` surviving
preprocessing on a 100×100 image. -/
theorem C1_preprocess_bounds_witness :
    0 ≤ Point.z ((5:ℚ), 5, 2)
      ∧ (0 ≤ Point.u ((5:ℚ), 5, 2) ∧ Point.u ((5:ℚ), 5, 2) ≤ 100)
      ∧ (0 ≤ Point.v ((5:ℚ), 5, 2) ∧ Point.v ((5:ℚ), 5, 2) ≤ 100) :=
  C1_preprocess_bounds 100 100 [((5:ℚ), 5, 2)] ((5:ℚ), 5, 2) (by decide)

/-- C2: on the scenario input `u=[5,150,-3,5]`, `v=[5,60,10,200]`,
`z=[2,-1,3,4]` with a 100×100 image, preprocessing keeps exactly the
original index 0, the point `(5, 5, 2)`, and removes indexes 1, 2 and 3. -/
theorem C2_scenario_preprocess :
    preprocessPoints 100 100
      [((5:ℚ), 5, 2), ((150:ℚ), 60, -1), ((-3:ℚ), 10, 3), ((5:ℚ), 200, 4)]
      = [((5:ℚ), 5, 2)] := by
  decide

/-- C3: preprocessing removes whole columns of the `velo_uvz` array, so the
same index disappears from `u`, `v` and `z` at once, the surviving columns
keep their relative order (the result is a sublist of the input), and the
three parallel sequences keep equal lengths. -/
theorem C3_preprocess_sync (w h : ℚ) (P : List Point) :
    (preprocessPoints w h P).Sublist P
      ∧ ((preprocessPoints w h P).map Point.u).length
          = ((preprocessPoints w h P).map Point.v).length
      ∧ ((preprocessPoints w h P).map Point.v).length
          = ((preprocessPoints w h P).map Point.z).length := by
  refine ⟨preprocessPoints_sublist w h P, ?_, ?_⟩ <;> simp

/-! Machinery for reasoning about the drawing passes. -/

theorem imageExt {a b : Image} (hh : a.height = b.height) (hw : a.width = b.width)
    (hp : ∀ r c, a.pix r c = b.pix r c) : a = b := by
  cases a; cases b
  simp_all
  funext r c
  exact hp r c

theorem drawPoint_height (pal : Fin 100 → Color) (img : Image) (p : Point) :
    (drawPoint pal img p).height = img.height := rfl

theorem drawPoint_width (pal : Fin 100 → Color) (img : Image) (p : Point) :
    (drawPoint pal img p).width = img.width := rfl

theorem drawSeq_height (pal : Fin 100 → Color) (ps : List Point) (img : Image) :
    (drawSeq pal ps img).height = img.height := by
  induction ps generalizing img with
  | nil => rfl
  | cons p ps ih => simpa [drawSeq] using ih (drawPoint pal img p)

theorem drawSeq_width (pal : Fin 100 → Color) (ps : List Point) (img : Image) :
    (drawSeq pal ps img).width = img.width := by
  induction ps generalizing img with
  | nil => rfl
  | cons p ps ih => simpa [drawSeq] using ih (drawPoint pal img p)

theorem lastHit_foldl_acc (h w : ℕ) (r c : ℕ) (ps : List Point) (acc : Option Point) :
    ps.foldl (fun a p => if hit h w (center p) 1 r c then some p else a) acc
      = match lastHit h w ps r c with
        | some p => some p
        | none => acc := by
  induction ps generalizing acc with
  | nil => simp [lastHit]
  | cons p ps ih =>
    show ps.foldl _ (if hit h w (center p) 1 r c then some p else acc) = _
    rw [ih]
    have hcons : lastHit h w (p :: ps) r c
        = match lastHit h w ps r c with
          | some q => some q
          | none => if hit h w (center p) 1 r c then some p else none := by
      show ps.foldl _ (if hit h w (center p) 1 r c then some p else none) = _
      rw [ih]
    rw [hcons]
    rcases lastHit h w ps r c with _ | q
    · by_cases hh : hit h w (center p) 1 r c = true <;> simp [hh]
    · simp

theorem lastHit_cons (h w : ℕ) (r c : ℕ) (p : Point) (ps : List Point) :
    lastHit h w (p :: ps) r c
      = match lastHit h w ps r c with
        | some q => some q
        | none => if hit h w (center p) 1 r c then some p else none := by
  show ps.foldl _ (if hit h w (center p) 1 r c then some p else none) = _
  rw [lastHit_foldl_acc]

theorem drawSeq_pix (pal : Fin 100 → Color) (ps : List Point) (img : Image) (r c : ℕ) :
    (drawSeq pal ps img).pix r c
      = match lastHit img.height img.width ps r c with
        | some p => color_map pal p.z
        | none => img.pix r c := by
  induction ps generalizing img with
  | nil => simp [drawSeq, lastHit]
  | cons p ps ih =>
    show (drawSeq pal ps (drawPoint pal img p)).pix r c = _
    rw [ih (drawPoint pal img p), lastHit_cons, drawPoint_height, drawPoint_width]
    have hpix : (drawPoint pal img p).pix r c
        = if hit img.height img.width (center p) 1 r c
          then color_map pal p.z else img.pix r c := rfl
    rcases hlh : lastHit img.height img.width ps r c with _ | q
    · rw [hpix]
      by_cases hh : hit img.height img.width (center p) 1 r c = true <;> simp [hh]
    · rfl

theorem lastHit_eq_none_iff (h w : ℕ) (ps : List Point) (r c : ℕ) :
    lastHit h w ps r c = none
      ↔ ∀ p ∈ ps, hit h w (center p) 1 r c = false := by
  induction ps with
  | nil => simp [lastHit]
  | cons p ps ih =>
    rw [lastHit_cons]
    rcases hps : lastHit h w ps r c with _ | q
    · by_cases hh : hit h w (center p) 1 r c = true
      · simp only [hh, if_true]
        constructor
        · intro habs
          cases habs
        · intro hall
          rw [hall p (List.mem_cons_self p ps)] at hh
          cases hh
      · simp only [Bool.not_eq_true] at hh
        simp only [hh, Bool.false_eq_true, if_false]
        constructor
        · intro _ q hq
          rcases List.mem_cons.mp hq with rfl | hq2
          · exact hh
          · exact (ih.mp hps) q hq2
        · intro _
          trivial
    · constructor
      · intro habs
        cases habs
      · intro hall
        have hnone := ih.mpr (fun x hx => hall x (List.mem_cons_of_mem p hx))
        rw [hnone] at hps
        cases hps

theorem drawSeq_pix_frame (pal : Fin 100 → Color) (ps : List Point) (img : Image) (r c : ℕ)
    (hno : ∀ p ∈ ps, hit img.height img.width (center p) 1 r c = false) :
    (drawSeq pal ps img).pix r c = img.pix r c := by
  rw [drawSeq_pix, (lastHit_eq_none_iff _ _ _ _ _).mpr hno]

theorem drawSeq_idem (pal : Fin 100 → Color) (ps : List Point) (img : Image) :
    drawSeq pal ps (drawSeq pal ps img) = drawSeq pal ps img := by
  apply imageExt
  · rw [drawSeq_height, drawSeq_height]
  · rw [drawSeq_width, drawSeq_width]
  · intro r c
    have hL := drawSeq_pix pal ps (drawSeq pal ps img) r c
    rw [drawSeq_height, drawSeq_width] at hL
    rw [hL]
    rcases hlh : lastHit img.height img.width ps r c with _ | q
    · rfl
    · rw [drawSeq_pix, hlh]

theorem foldl_filter_eq {α β : Type} (p : α → Bool) (g : β → α → β) (l : List α) (init : β) :
    (l.filter p).foldl g init
      = l.foldl (fun acc x => if p x then g acc x else acc) init := by
  induction l generalizing init with
  | nil => rfl
  | cons a l ih =>
    by_cases hp : p a = true
    · rw [List.filter_cons_of_pos hp]
      show (l.filter p).foldl g (g init a) = _
      rw [ih]
      simp [hp]
    · have hf : p a = false := by simpa using hp
      rw [List.filter_cons_of_neg (by simp [hf])]
      rw [ih]
      simp [hf]

theorem loopA_of_not_truthy (pal : Fin 100 → Color) (idxs : Option (List ℕ))
    (P : List Point) (img : Image) (h : truthy idxs = false) :
    loopA pal idxs P img = img := by
  simp [loopA, h]

theorem loopA_of_truthy (pal : Fin 100 → Color) (idxs : Option (List ℕ))
    (P : List Point) (img : Image) (h : truthy idxs = true) :
    loopA pal idxs P img
      = drawSeq pal
          ((P.enum.filter (fun ip => (idxs.getD []).contains ip.1)).map Prod.snd)
          img := by
  unfold loopA drawSeq
  rw [List.foldl_map, foldl_filter_eq]
  simp [h]

theorem sel_nil (P : List Point) : sel P [] = [] := rfl

theorem mem_sel_of_mem_selInc {P : List Point} {l : List ℕ} {p : Point}
    (hp : p ∈ (P.enum.filter (fun ip => l.contains ip.1)).map Prod.snd) :
    p ∈ sel P l := by
  rcases List.mem_map.mp hp with ⟨ip, hmem, rfl⟩
  rcases List.mem_filter.mp hmem with ⟨henum, hcont⟩
  exact List.mem_filterMap.mpr
    ⟨ip.1, List.elem_iff.mp hcont, List.mem_enum_iff_getElem?.mp henum⟩

theorem sel_range (P : List Point) : sel P (List.range P.length) = P := by
  induction P with
  | nil => rfl
  | cons p P ih =>
    show sel (p :: P) (List.range (P.length + 1)) = p :: P
    rw [List.range_succ_eq_map]
    unfold sel
    rw [List.filterMap_cons]
    simp only [List.getElem?_cons_zero]
    rw [List.filterMap_map]
    have hfun : ((fun i => (p :: P)[i]?) ∘ Nat.succ) = (fun i => P[i]?) := by
      funext i
      simp
    rw [hfun]
    exact congrArg (p :: ·) ih

theorem selInc_range (P : List Point) :
    (P.enum.filter (fun ip => (List.range P.length).contains ip.1)).map Prod.snd = P := by
  have hall : ∀ ip ∈ P.enum, (List.range P.length).contains ip.1 = true := by
    intro ip hip
    have hg := List.mem_enum_iff_getElem?.mp hip
    have hlt : ip.1 < P.length := by
      rcases List.getElem?_eq_some.mp hg with ⟨hlt, -⟩
      exact hlt
    exact List.elem_iff.mpr (List.mem_range.mpr hlt)
  rw [List.filter_eq_self.mpr hall, List.enum_map_snd]

theorem drawIdxRun_ok (pal : Fin 100 → Color) (P : List Point) (l : List ℕ) :
    ∀ img : Image, (∀ i ∈ l, i < P.length) →
      drawIdxRun pal P l img = (drawSeq pal (sel P l) img, none) := by
  induction l with
  | nil =>
    intro img _
    rfl
  | cons i rest ih =>
    intro img hall
    have hi : i < P.length := hall i (List.mem_cons_self i rest)
    have hg : P[i]? = some P[i] := List.getElem?_eq_getElem hi
    simp only [drawIdxRun, hg]
    rw [ih _ (fun j hj => hall j (List.mem_cons_of_mem i hj))]
    have hsel : sel P (i :: rest) = P[i] :: sel P rest := by
      simp [sel, List.filterMap_cons, hg]
    rw [hsel]
    rfl

theorem drawIdxRun_err (pal : Fin 100 → Color) (P : List Point) (l : List ℕ) :
    ∀ img : Image, (∃ i ∈ l, P.length ≤ i) →
      (drawIdxRun pal P l img).2 = some "IndexError" := by
  induction l with
  | nil =>
    rintro img ⟨i, hi, -⟩
    cases hi
  | cons j rest ih =>
    rintro img ⟨i, hil, hout⟩
    simp only [drawIdxRun]
    rcases hg : P[j]? with _ | p
    · rfl
    · apply ih
      rcases List.mem_cons.mp hil with rfl | hrest
      · rw [List.getElem?_eq_none hout] at hg
        cases hg
      · exact ⟨i, hrest, hout⟩

theorem drawIdxRun_fst_height (pal : Fin 100 → Color) (P : List Point) (l : List ℕ) :
    ∀ img : Image, ((drawIdxRun pal P l img).1).height = img.height := by
  induction l with
  | nil => intro img; rfl
  | cons i rest ih =>
    intro img
    simp only [drawIdxRun]
    rcases P[i]? with _ | p
    · rfl
    · exact ih (drawPoint pal img p)

theorem drawIdxRun_fst_width (pal : Fin 100 → Color) (P : List Point) (l : List ℕ) :
    ∀ img : Image, ((drawIdxRun pal P l img).1).width = img.width := by
  induction l with
  | nil => intro img; rfl
  | cons i rest ih =>
    intro img
    simp only [drawIdxRun]
    rcases P[i]? with _ | p
    · rfl
    · exact ih (drawPoint pal img p)

theorem drawIdxRun_fst_pix_frame (pal : Fin 100 → Color) (P : List Point) (l : List ℕ) :
    ∀ (img : Image) (r c : ℕ),
      (∀ p ∈ sel P l, hit img.height img.width (center p) 1 r c = false) →
      ((drawIdxRun pal P l img).1).pix r c = img.pix r c := by
  induction l with
  | nil =>
    intro img r c _
    rfl
  | cons i rest ih =>
    intro img r c hno
    simp only [drawIdxRun]
    rcases hg : P[i]? with _ | p
    · rfl
    · have hsel : sel P (i :: rest) = p :: sel P rest := by
        simp [sel, List.filterMap_cons, hg]
      rw [hsel] at hno
      have hp := hno p (List.mem_cons_self p (sel P rest))
      have hrest : ∀ q ∈ sel P rest,
          hit (drawPoint pal img p).height (drawPoint pal img p).width
            (center q) 1 r c = false := by
        intro q hq
        rw [drawPoint_height, drawPoint_width]
        exact hno q (List.mem_cons_of_mem p hq)
      rw [ih (drawPoint pal img p) r c hrest]
      show (if hit img.height img.width (center p) 1 r c
            then color_map pal p.z else img.pix r c) = img.pix r c
      simp [hp]

theorem draw_eq_of_not_truthy (pal : Fin 100 → Color) (P : List Point) (img : Image)
    (pre : Bool) (idxs : Option (List ℕ)) (h : truthy idxs = false) :
    draw_projections_on_image pal P img pre idxs
      = ⟨drawSeq pal (activePoints P img pre) img,
         some (drawSeq pal (activePoints P img pre) img), none⟩ := by
  show (if truthy idxs = true then
      match drawIdxRun pal (activePoints P img pre) (idxs.getD [])
          (loopA pal idxs (activePoints P img pre) img) with
      | (img2, none) => RunResult.mk img2 (some img2) none
      | (img2, some m) => RunResult.mk img2 none (some m)
    else
      RunResult.mk (drawSeq pal (activePoints P img pre) (loopA pal idxs (activePoints P img pre) img))
        (some (drawSeq pal (activePoints P img pre) (loopA pal idxs (activePoints P img pre) img)))
        none) = _
  rw [h, loopA_of_not_truthy _ _ _ _ h]
  simp

theorem draw_eq_of_truthy (pal : Fin 100 → Color) (P : List Point) (img : Image)
    (pre : Bool) (idxs : Option (List ℕ)) (h : truthy idxs = true) :
    draw_projections_on_image pal P img pre idxs
      = match drawIdxRun pal (activePoints P img pre) (idxs.getD [])
              (loopA pal idxs (activePoints P img pre) img) with
        | (img2, none) => ⟨img2, some img2, none⟩
        | (img2, some m) => ⟨img2, none, some m⟩ := by
  show (if truthy idxs = true then
      match drawIdxRun pal (activePoints P img pre) (idxs.getD [])
          (loopA pal idxs (activePoints P img pre) img) with
      | (img2, none) => RunResult.mk img2 (some img2) none
      | (img2, some m) => RunResult.mk img2 none (some m)
    else
      RunResult.mk (drawSeq pal (activePoints P img pre) (loopA pal idxs (activePoints P img pre) img))
        (some (drawSeq pal (activePoints P img pre) (loopA pal idxs (activePoints P img pre) img)))
        none) = _
  rw [h]
  simp

/-! Concrete fixtures for witnesses and counterexamples. -/

/-- A concrete palette whose entries are all `(1, 1, 1)`. -/
def pal0 : Fin 100 → Color := fun _ => (1, 1, 1)

/-- A concrete 10×10 image whose pixels are all `(7, 7, 7)`. -/
def img0 : Image := ⟨10, 10, fun _ _ => (7, 7, 7)⟩

/-- A concrete 3-point set, all points valid for `img0`. -/
def pts3 : List Point := [((5:ℚ), 5, 2), ((8:ℚ), 5, 3), ((2:ℚ), 2, 1)]

/-- The set of points a call may draw from: the indexed subset when
`indexes` is truthy, every active point otherwise. -/
def drawnPool (P2 : List Point) (idxs : Option (List ℕ)) : List Point :=
  if truthy idxs then sel P2 (idxs.getD []) else P2

/-- C4 (counterexample): the claim is false for a provided-but-empty index
set — the Python check `if indexes:` is falsy on an empty set, so the code draws
every point instead of none: with `indexes = ∅` on a one-point set the
pixel of the point changes even though no index is in the subset. -/
theorem C4_empty_subset_counterexample :
    (draw_projections_on_image pal0 [((5:ℚ), 5, 2)] img0 false (some [])).buffer.pix 5 5
      ≠ img0.pix 5 5 := by
  rw [draw_eq_of_not_truthy pal0 [((5:ℚ), 5, 2)] img0 false (some []) rfl]
  show (drawSeq pal0 (activePoints [((5:ℚ), 5, 2)] img0 false) img0).pix 5 5 ≠ img0.pix 5 5
  have hact : activePoints [((5:ℚ), 5, 2)] img0 false = [((5:ℚ), 5, 2)] := rfl
  rw [hact]
  show (drawPoint pal0 img0 ((5:ℚ), 5, 2)).pix 5 5 ≠ img0.pix 5 5
  show (if hit img0.height img0.width (center ((5:ℚ), 5, 2)) 1 5 5
        then color_map pal0 (Point.z ((5:ℚ), 5, 2)) else img0.pix 5 5) ≠ img0.pix 5 5
  have hhit : hit img0.height img0.width (center ((5:ℚ), 5, 2)) 1 5 5 = true := by decide
  rw [hhit]
  have hc : color_map pal0 (Point.z ((5:ℚ), 5, 2)) = ((255:ℚ), 255, 255) := by
    simp [color_map, pal0]
  simp only [if_true, hc]
  decide

/-- C4 (amended): for every call in which `indexes` is provided, non-empty
and within range, the call succeeds, the saved file is the final buffer,
and the final buffer is exactly the input image overwritten by the circles
of the selected points — each pixel shows the color of the last selected
point whose circle covers it, and pixels covered by the circle of no
selected point are unchanged. -/
theorem C4_nonempty_subset_draw (pal : Fin 100 → Color) (P : List Point) (img : Image)
    (pre : Bool) (l : List ℕ) (hne : l ≠ [])
    (hrange : ∀ i ∈ l, i < (activePoints P img pre).length) :
    (draw_projections_on_image pal P img pre (some l)).err = none
    ∧ (draw_projections_on_image pal P img pre (some l)).saved
        = some (draw_projections_on_image pal P img pre (some l)).buffer
    ∧ ∀ r c : ℕ,
        (draw_projections_on_image pal P img pre (some l)).buffer.pix r c
          = match lastHit img.height img.width (sel (activePoints P img pre) l) r c with
            | some p => color_map pal p.z
            | none => img.pix r c := by
  have ht : truthy (some l) = true := by
    simp [truthy, List.isEmpty_iff, hne]
  rw [draw_eq_of_truthy _ _ _ _ _ ht]
  simp only [Option.getD_some]
  rw [drawIdxRun_ok pal _ l _ hrange]
  refine ⟨rfl, rfl, ?_⟩
  intro r c
  show (drawSeq pal (sel (activePoints P img pre) l)
      (loopA pal (some l) (activePoints P img pre) img)).pix r c = _
  rw [loopA_of_truthy _ _ _ _ ht]
  simp only [Option.getD_some]
  rw [drawSeq_pix, drawSeq_height, drawSeq_width]
  rcases hlh : lastHit img.height img.width (sel (activePoints P img pre) l) r c with _ | q
  · have hno := (lastHit_eq_none_iff _ _ _ _ _).mp hlh
    exact drawSeq_pix_frame _ _ _ _ _ (fun p hp => hno p (mem_sel_of_mem_selInc hp))
  · rfl

/-- Witness for C4 (amended): `indexes = {0}` on the concrete 3-point set
`pts3` succeeds and pixel `(0,0)` follows the selected-points rendering. -/
theorem C4_nonempty_subset_draw_witness :
    (draw_projections_on_image pal0 pts3 img0 false (some [0])).err = none
    ∧ (draw_projections_on_image pal0 pts3 img0 false (some [0])).saved
        = some (draw_projections_on_image pal0 pts3 img0 false (some [0])).buffer
    ∧ (draw_projections_on_image pal0 pts3 img0 false (some [0])).buffer.pix 0 0
        = match lastHit img0.height img0.width (sel (activePoints pts3 img0 false) [0]) 0 0 with
          | some p => color_map pal0 p.z
          | none => img0.pix 0 0 :=
  ⟨(C4_nonempty_subset_draw pal0 pts3 img0 false [0] (by decide) (by decide)).1,
   (C4_nonempty_subset_draw pal0 pts3 img0 false [0] (by decide) (by decide)).2.1,
   (C4_nonempty_subset_draw pal0 pts3 img0 false [0] (by decide) (by decide)).2.2 0 0⟩

/-- C5: drawing with `indexes = {0, ..., N-1}` (which iterates in
increasing order) produces exactly the same outcome — final buffer, saved
file and error status — as drawing with `indexes = None`, even though the
truthy branch draws every point twice: redrawing the same sequence of
circles changes nothing. -/
theorem C5_full_index_set (pal : Fin 100 → Color) (P : List Point) (img : Image)
    (pre : Bool) :
    draw_projections_on_image pal P img pre
        (some (List.range (activePoints P img pre).length))
      = draw_projections_on_image pal P img pre none := by
  by_cases hz : (activePoints P img pre).length = 0
  · have ht1 : truthy (some (List.range (activePoints P img pre).length)) = false := by
      rw [hz]
      rfl
    rw [draw_eq_of_not_truthy pal P img pre _ ht1,
      draw_eq_of_not_truthy pal P img pre none rfl]
  · have ht : truthy (some (List.range (activePoints P img pre).length)) = true := by
      simp [truthy, List.isEmpty_iff, List.range_eq_nil, hz]
    rw [draw_eq_of_truthy pal P img pre _ ht,
      draw_eq_of_not_truthy pal P img pre none rfl]
    simp only [Option.getD_some]
    have hloopA : loopA pal (some (List.range (activePoints P img pre).length))
        (activePoints P img pre) img = drawSeq pal (activePoints P img pre) img := by
      rw [loopA_of_truthy _ _ _ _ ht]
      simp only [Option.getD_some]
      rw [selInc_range]
    rw [hloopA]
    rw [drawIdxRun_ok pal _ _ _ (fun i hi => List.mem_range.mp hi), sel_range]
    rw [drawSeq_idem]

/-- C6: the depth-to-color mapping is a pure function of the rounded
depth — depths with equal rounded value get equal colors — and the color
is the RGB triple of one of the 100 palette entries with each channel
scaled by 255. -/
theorem C6_color_determinism (pal : Fin 100 → Color) (z1 z2 : ℚ)
    (h : roundHalfEven z1 = roundHalfEven z2) :
    color_map pal z1 = color_map pal z2
    ∧ color_map pal z1
        = (255 * (pal (clampIdx (roundHalfEven z1))).1,
           255 * (pal (clampIdx (roundHalfEven z1))).2.1,
           255 * (pal (clampIdx (roundHalfEven z1))).2.2) := by
  unfold color_map
  rw [h]
  exact ⟨rfl, rfl⟩

/-- Witness for C6 at the concrete depth `z1 = z2 = 2`. -/
theorem C6_color_determinism_witness :
    color_map pal0 2 = color_map pal0 2
    ∧ color_map pal0 2
        = (255 * (pal0 (clampIdx (roundHalfEven 2))).1,
           255 * (pal0 (clampIdx (roundHalfEven 2))).2.1,
           255 * (pal0 (clampIdx (roundHalfEven 2))).2.2) :=
  C6_color_determinism pal0 2 2 rfl

/-- C7: when the provided index set contains an index that is out of range
for the (possibly already-filtered) point set, the call raises
`IndexError` and no output file is written — the save at line 76 runs only
after all drawing completes. -/
theorem C7_out_of_range_index (pal : Fin 100 → Color) (P : List Point) (img : Image)
    (pre : Bool) (l : List ℕ) (i : ℕ) (hil : i ∈ l)
    (hout : (activePoints P img pre).length ≤ i) :
    (draw_projections_on_image pal P img pre (some l)).err = some "IndexError"
    ∧ (draw_projections_on_image pal P img pre (some l)).saved = none := by
  have ht : truthy (some l) = true := by
    simp [truthy, List.isEmpty_iff, List.ne_nil_of_mem hil]
  rw [draw_eq_of_truthy pal P img pre (some l) ht]
  simp only [Option.getD_some]
  have herr := drawIdxRun_err pal (activePoints P img pre) l
    (loopA pal (some l) (activePoints P img pre) img) ⟨i, hil, hout⟩
  rcases hrun : drawIdxRun pal (activePoints P img pre) l
      (loopA pal (some l) (activePoints P img pre) img) with ⟨img2, e⟩
  rw [hrun] at herr
  simp only at herr
  subst herr
  exact ⟨rfl, rfl⟩

/-- Witness for C7: index 3 on a 1-point set raises `IndexError` with no
file written. -/
theorem C7_out_of_range_index_witness :
    (draw_projections_on_image pal0 [((5:ℚ), 5, 2)] img0 false (some [3])).err
        = some "IndexError"
    ∧ (draw_projections_on_image pal0 [((5:ℚ), 5, 2)] img0 false (some [3])).saved
        = none :=
  C7_out_of_range_index pal0 [((5:ℚ), 5, 2)] img0 false [3] 3 (by decide) (by decide)

/-- C8: when no points remain to draw (empty input, or everything removed
by preprocessing) and `indexes` is absent, the call succeeds and the image
written to the output path is exactly the input buffer. -/
theorem C8_noop_on_empty (pal : Fin 100 → Color) (P : List Point) (img : Image)
    (pre : Bool) (hP : activePoints P img pre = []) :
    draw_projections_on_image pal P img pre none = ⟨img, some img, none⟩ := by
  rw [draw_eq_of_not_truthy pal P img pre none rfl, hP]
  rfl

/-- Witness for C8 on the empty point set. -/
theorem C8_noop_on_empty_witness :
    draw_projections_on_image pal0 [] img0 false none = ⟨img0, some img0, none⟩ :=
  C8_noop_on_empty pal0 [] img0 false rfl

/-- C9: every call leaves the buffer of the caller with its original height and
width — in the embedding the dimensions are never changed, matching the
renderer which never resizes or reallocates the numpy buffer — and the only
pixels that can differ from the input are those covered by the circle of
some point the call may draw; every pixel hit by no such circle is
unchanged when the call ends, normally or by exception. -/
theorem C9_buffer_frame (pal : Fin 100 → Color) (P : List Point) (img : Image)
    (pre : Bool) (idxs : Option (List ℕ)) :
    ((draw_projections_on_image pal P img pre idxs).buffer.height = img.height
      ∧ (draw_projections_on_image pal P img pre idxs).buffer.width = img.width)
    ∧ ∀ r c : ℕ,
        (∀ p ∈ drawnPool (activePoints P img pre) idxs,
          hit img.height img.width (center p) 1 r c = false) →
        (draw_projections_on_image pal P img pre idxs).buffer.pix r c
          = img.pix r c := by
  cases ht : truthy idxs with
  | false =>
    rw [draw_eq_of_not_truthy pal P img pre idxs ht]
    refine ⟨⟨drawSeq_height _ _ _, drawSeq_width _ _ _⟩, ?_⟩
    intro r c hno
    rw [drawnPool, ht] at hno
    simp only [Bool.false_eq_true, if_false] at hno
    exact drawSeq_pix_frame _ _ _ _ _ hno
  | true =>
    rw [draw_eq_of_truthy pal P img pre idxs ht]
    rcases hrun : drawIdxRun pal (activePoints P img pre) (idxs.getD [])
        (loopA pal idxs (activePoints P img pre) img) with ⟨img2, e⟩
    have hfst : img2 = (drawIdxRun pal (activePoints P img pre) (idxs.getD [])
        (loopA pal idxs (activePoints P img pre) img)).1 := by
      rw [hrun]
    have hAdims : (loopA pal idxs (activePoints P img pre) img).height = img.height
        ∧ (loopA pal idxs (activePoints P img pre) img).width = img.width := by
      rw [loopA_of_truthy _ _ _ _ ht]
      exact ⟨drawSeq_height _ _ _, drawSeq_width _ _ _⟩
    have hdims : img2.height = img.height ∧ img2.width = img.width := by
      rw [hfst]
      rw [drawIdxRun_fst_height, drawIdxRun_fst_width, hAdims.1, hAdims.2]
      exact ⟨rfl, rfl⟩
    have hpix : ∀ r c : ℕ,
        (∀ p ∈ drawnPool (activePoints P img pre) idxs,
          hit img.height img.width (center p) 1 r c = false) →
        img2.pix r c = img.pix r c := by
      intro r c hno
      rw [drawnPool, ht] at hno
      simp only [if_true] at hno
      have hAframe : (loopA pal idxs (activePoints P img pre) img).pix r c
          = img.pix r c := by
        rw [loopA_of_truthy _ _ _ _ ht]
        exact drawSeq_pix_frame _ _ _ _ _ (fun p hp => hno p (mem_sel_of_mem_selInc hp))
      have hrunframe := drawIdxRun_fst_pix_frame pal (activePoints P img pre)
        (idxs.getD []) (loopA pal idxs (activePoints P img pre) img) r c
        (by
          rw [hAdims.1, hAdims.2]
          exact hno)
      rw [hfst, hrunframe, hAframe]
    cases e with
    | none => exact ⟨hdims, hpix⟩
    | some m => exact ⟨hdims, hpix⟩

/-- Witness for C9 on a call with no points: dimensions are preserved and
pixel `(0,0)` is unchanged. -/
theorem C9_buffer_frame_witness :
    ((draw_projections_on_image pal0 [] img0 false none).buffer.height = img0.height
      ∧ (draw_projections_on_image pal0 [] img0 false none).buffer.width = img0.width)
    ∧ (draw_projections_on_image pal0 [] img0 false none).buffer.pix 0 0
        = img0.pix 0 0 :=
  ⟨(C9_buffer_frame pal0 [] img0 false none).1,
   (C9_buffer_frame pal0 [] img0 false none).2 0 0 (by decide)⟩

/-- C10: every draw call centers its circle at `(int(u[i]), int(v[i]))` —
the real coordinates truncated toward zero — so any coordinate in
`[k, k+1)` for a natural `k` lands on pixel column/row `k`; and a point
with `u` equal to the image width survives preprocessing (given valid `v`
and `z`) with its truncated center on the out-of-buffer column
`image_width`. -/
theorem C10_truncated_centers :
    (∀ (pal : Fin 100 → Color) (img : Image) (p : Point),
        drawPoint pal img p
          = drawCircle img (truncToInt p.u, truncToInt p.v) 1 (color_map pal p.z))
    ∧ (∀ (k : ℕ) (q : ℚ), (k:ℚ) ≤ q → q < ((k+1 : ℕ) : ℚ) → truncToInt q = (k:ℤ))
    ∧ (∀ (w h : ℕ) (v z : ℚ), 0 ≤ v → v ≤ (h:ℚ) → 0 ≤ z →
        ((w:ℚ), v, z) ∈ preprocessPoints (w:ℚ) (h:ℚ) [((w:ℚ), v, z)]
          ∧ (center ((w:ℚ), v, z)).1 = (w:ℤ)) := by
  have htr : ∀ (k : ℕ) (q : ℚ), (k:ℚ) ≤ q → q < ((k+1:ℕ):ℚ) → truncToInt q = (k:ℤ) := by
    intro k q hk hk1
    have hq0 : (0:ℚ) ≤ q := le_trans (by exact_mod_cast Nat.zero_le k) hk
    have hnum : 0 ≤ q.num := Rat.num_nonneg.mpr hq0
    have hden : (0:ℤ) ≤ (q.den : ℤ) := Int.ofNat_nonneg q.den
    unfold truncToInt
    rw [Int.tdiv_eq_ediv hnum hden]
    have hfloor : ⌊q⌋ = q.num / (q.den : ℤ) := Rat.floor_def
    rw [← hfloor, Int.floor_eq_iff]
    constructor
    · exact_mod_cast hk
    · push_cast at hk1 ⊢
      linarith
  refine ⟨fun pal img p => rfl, htr, ?_⟩
  intro w h v z hv0 hvh hz0
  constructor
  · apply mem_preprocessPoints.mpr
    exact ⟨List.mem_singleton_self _, not_lt.mpr hz0,
      not_lt.mpr (show (0:ℚ) ≤ (w:ℚ) from by exact_mod_cast Nat.zero_le w),
      lt_irrefl ((w:ℚ)), not_lt.mpr hv0, not_lt.mpr hvh⟩
  · show truncToInt ((w:ℚ)) = (w:ℤ)
    apply htr w (w:ℚ) (le_refl _)
    push_cast
    linarith

/-- Witness for C10: the truncation facts at `q = 1, k = 1` and the
`u == image_width` survival at the concrete point `(3, 2, 0)` against a
3-wide, 4-high image. -/
theorem C10_truncated_centers_witness :
    drawPoint pal0 img0 ((5:ℚ), 5, 2)
        = drawCircle img0
            (truncToInt (Point.u ((5:ℚ), 5, 2)), truncToInt (Point.v ((5:ℚ), 5, 2)))
            1 (color_map pal0 (Point.z ((5:ℚ), 5, 2)))
    ∧ truncToInt (1:ℚ) = ((1:ℕ):ℤ)
    ∧ (((3:ℕ):ℚ), (2:ℚ), (0:ℚ)) ∈ preprocessPoints ((3:ℕ):ℚ) ((4:ℕ):ℚ)
        [(((3:ℕ):ℚ), (2:ℚ), (0:ℚ))]
    ∧ (center (((3:ℕ):ℚ), (2:ℚ), (0:ℚ))).1 = ((3:ℕ):ℤ) :=
  ⟨C10_truncated_centers.1 pal0 img0 ((5:ℚ), 5, 2),
   C10_truncated_centers.2.1 1 1 (by decide) (by decide),
   (C10_truncated_centers.2.2 3 4 2 0 (by decide) (by decide) (by decide)).1,
   (C10_truncated_centers.2.2 3 4 2 0 (by decide) (by decide) (by decide)).2⟩
